import Mathlib

/-!
Verification of the OrgOnboarder roster reconciliation core against its
specification.  The TypeScript sources are shallowly embedded: pure
functions become Lean functions, the document store becomes explicit
state passing over lists of documents, JS numbers become `Nat` (all the
quantities involved are non-negative integers), JS `Date.now()` becomes
an explicit `now : Nat` argument, and fractional comparisons such as
`errorRate > 0.3` are expressed by exact cross-multiplication.
-/

namespace OrgOnboarder

/-! ## Embedding of src/normalizer/src/status.ts -/

/-- The status vocabulary (`statusMap` in status.ts) in source insertion
order; JS object literals with string keys preserve insertion order. -/
def statusMap : List (String × String) := [
  ("active", "active"), ("employed", "active"), ("current", "active"),
  ("working", "active"), ("full-time", "active"), ("fulltime", "active"),
  ("part-time", "active"), ("parttime", "active"), ("contractor", "active"),
  ("consultant", "active"), ("intern", "active"),
  ("inactive", "inactive"), ("on leave", "inactive"), ("onleave", "inactive"),
  ("leave", "inactive"), ("sabbatical", "inactive"), ("maternity", "inactive"),
  ("paternity", "inactive"), ("medical", "inactive"), ("suspended", "inactive"),
  ("left", "left"), ("terminated", "left"), ("former", "left"),
  ("resigned", "left"), ("retired", "left"), ("departed", "left"),
  ("exited", "left"), ("quit", "left"), ("fired", "left"), ("removed", "left")]

/-- JS `String.prototype.trim`: drop whitespace from both ends. -/
def trimChars (l : List Char) : List Char :=
  ((l.dropWhile Char.isWhitespace).reverse.dropWhile Char.isWhitespace).reverse

/-- JS `s.toLowerCase()` (ASCII fragment, as used by the roster data). -/
def jsLower (s : String) : String := ⟨s.data.map Char.toLower⟩

/-- JS `s.trim()`. -/
def jsTrim (s : String) : String := ⟨trimChars s.data⟩

/-- `key` occurs as a contiguous run inside `s`. -/
def hasInfix (s key : List Char) : Bool :=
  match s with
  | [] => key.isEmpty
  | _ :: t => key.isPrefixOf s || hasInfix t key

/-- JS `s.includes(key)`: `key` occurs as a contiguous substring of `s`. -/
def strIncludes (s key : String) : Bool := hasInfix s.data key.data

/-- A JS runtime value as far as `normalizeStatus` can observe it: a
string, or a non-string object/function (reached through the prototype
chain of the `statusMap` object literal), identified by a display
name. -/
inductive JsVal where
  | str (s : String)
  | obj (name : String)
deriving Repr, DecidableEq

/-- The JS property read `statusMap[normalized]`: own properties first
(yielding the mapped status string), then the prototype chain of the
object literal.  `normalized` is lowercased, and the only
`Object.prototype` properties with all-lowercase names are
`constructor` (the `Object` constructor function) and `__proto__` (an
accessor yielding `Object.prototype` itself) — both non-string and
truthy.  Every value this read can produce is truthy (the own values
are the non-empty strings `active`/`inactive`/`left`), so the source's
`if (statusMap[normalized])` test succeeds exactly when the read is not
`undefined` (`none`). -/
def statusMapGet (key : String) : Option JsVal :=
  match statusMap.find? (fun p => p.1 = key) with
  | some p => some (.str p.2)
  | none =>
    if key = "constructor" then some (.obj "Object")
    else if key = "__proto__" then some (.obj "Object.prototype")
    else none

/-- `normalizeStatus` from status.ts.  The argument is `Option String`
to model `string | undefined | null`; the JS falsy test `!status` also
catches the empty string.  The exact-match step is the property read
`statusMapGet` (prototype chain included); the partial-match loop uses
`Object.entries`, which sees own properties only, in insertion
order. -/
def normalizeStatus : Option String → JsVal
  | none => .str "active"
  | some s =>
    if s = "" then .str "active"
    else
      match statusMapGet (jsTrim (jsLower s)) with
      | some v => v
      | none =>
        match statusMap.find? (fun p => strIncludes (jsTrim (jsLower s)) p.1) with
        | some p => .str p.2
        | none => .str "inactive"

instance {e a : Type} [DecidableEq e] [DecidableEq a] :
    DecidableEq (Except e a) := fun x y =>
  match x, y with
  | Except.ok u, Except.ok v =>
    if h : u = v then Decidable.isTrue (by rw [h])
    else Decidable.isFalse (fun hc => h (Except.ok.inj hc))
  | Except.ok _, Except.error _ =>
    Decidable.isFalse (fun hc => Except.noConfusion hc)
  | Except.error _, Except.ok _ =>
    Decidable.isFalse (fun hc => Except.noConfusion hc)
  | Except.error u, Except.error v =>
    if h : u = v then Decidable.isTrue (by rw [h])
    else Decidable.isFalse (fun hc => h (Except.error.inj hc))

/-- Re-invoking `normalizeStatus` on a previous result, as in
`normalize(normalize(s))`: `undefined`/`null` and the empty string
short-circuit to `active`; any other string runs `normalizeStatus`; a
non-string value is truthy, passes the `!status` guard, and then
`status.toLowerCase()` throws a TypeError (modelled by
`Except.error`). -/
def normalizeStatusVal : Option JsVal → Except String JsVal
  | none => .ok (.str "active")
  | some (.str s) => .ok (normalizeStatus (some s))
  | some (.obj name) =>
    .error ("TypeError: " ++ name ++ ".toLowerCase is not a function")

/-- The character class `[^\s@]` of the email regex. -/
def emailChar (c : Char) : Bool := !c.isWhitespace && c != '@'

/-- `isValidEmail` from status.ts: decides the JS regex test
`/^[^\s@]+@[^\s@]+\.[^\s@]+$/.test(email.trim())`.  A string matches the
regex iff it splits as `A ++ "@" ++ rest` where `A` is non-empty with no
whitespace or `@` (hence `A` is exactly the part before the first `@`),
and `rest` is non-empty with no whitespace or `@` and contains a dot
that is neither its first nor its last character (so that both
`[^\s@]+` groups around the dot are non-empty). -/
def isValidEmail : Option String → Bool
  | none => false
  | some s =>
    if s = "" then false
    else
      let l := (jsTrim s).data
      let localPart := l.takeWhile (fun c => c != '@')
      match l.dropWhile (fun c => c != '@') with
      | '@' :: rest =>
        localPart != [] && localPart.all emailChar &&
          rest != [] && rest.all emailChar &&
          ((rest.drop 1).dropLast.contains '.')
      | _ => false

/-! ## Embedding of src/normalizer/src/normalize.ts -/

/-- A raw input row (`RawEmployee`): both fields may be absent. -/
structure RawRow where
  email : Option String
  statusInOrg : Option String
deriving Repr, DecidableEq

structure NormalizedEmployee where
  email : String
  statusInOrg : JsVal
deriving Repr, DecidableEq

/-- JS `email?.toLowerCase().trim()`. -/
def jsNormEmail (s : String) : String := jsTrim (jsLower s)

/-- `normalizeRow` from normalize.ts: lowercase/trim the email, reject
missing, empty or invalid addresses, and normalize the status. -/
def normalizeRow (row : RawRow) : Option NormalizedEmployee :=
  match row.email.map jsNormEmail with
  | none => none
  | some e =>
    if e = "" then none
    else if !(isValidEmail (some e)) then none
    else some { email := e, statusInOrg := normalizeStatus row.statusInOrg }

/-! ## C9: idempotence of normalizeStatus -/

theorem statusMap_values : ∀ p ∈ statusMap,
    p.2 = "active" ∨ p.2 = "inactive" ∨ p.2 = "left" := by decide

theorem statusMapGet_cases (key : String) :
    statusMapGet key = none ∨
      statusMapGet key = some (.str "active") ∨
      statusMapGet key = some (.str "inactive") ∨
      statusMapGet key = some (.str "left") ∨
      (key = "constructor" ∧ statusMapGet key = some (.obj "Object")) ∨
      (key = "__proto__" ∧
        statusMapGet key = some (.obj "Object.prototype")) := by
  unfold statusMapGet
  cases hf : statusMap.find? (fun p => p.1 = key) with
  | some p =>
    rcases statusMap_values p (List.mem_of_find?_eq_some hf) with h | h | h <;>
      simp [h]
  | none =>
    by_cases h1 : key = "constructor"
    · simp [h1]
    · by_cases h2 : key = "__proto__" <;> simp [h1, h2]

theorem normalizeStatus_str_mem (s : Option String)
    (h : ∀ v, s = some v → jsTrim (jsLower v) ≠ "constructor" ∧
      jsTrim (jsLower v) ≠ "__proto__") :
    normalizeStatus s = .str "active" ∨ normalizeStatus s = .str "inactive" ∨
      normalizeStatus s = .str "left" := by
  cases s with
  | none => left; rfl
  | some v =>
    obtain ⟨h1, h2⟩ := h v rfl
    unfold normalizeStatus
    by_cases hv : v = ""
    · simp [hv]
    · simp only [hv, if_false]
      rcases statusMapGet_cases (jsTrim (jsLower v)) with
        hg | hg | hg | hg | ⟨hk, -⟩ | ⟨hk, -⟩
      · rw [hg]
        cases hp : statusMap.find?
            (fun p => strIncludes (jsTrim (jsLower v)) p.1) with
        | some p =>
          rcases statusMap_values p (List.mem_of_find?_eq_some hp) with
            h | h | h <;> simp [h]
        | none => right; left; rfl
      · rw [hg]; left; rfl
      · rw [hg]; right; left; rfl
      · rw [hg]; right; right; rfl
      · exact absurd hk h1
      · exact absurd hk h2

/-- C9 counterexample: `normalizeStatus` is not idempotent on the
source.  The input `"constructor"` misses every own key of `statusMap`
but hits the inherited `Object.prototype.constructor` through the
prototype chain; the truthy test passes and the source returns the
`Object` constructor function instead of a status string, so the outer
call of `normalize(normalize('constructor'))` throws a TypeError at
`status.toLowerCase()` rather than returning the same value. -/
theorem normalizeStatus_not_idempotent_at_constructor :
    normalizeStatus (some "constructor") = JsVal.obj "Object" ∧
      normalizeStatusVal (some (normalizeStatus (some "constructor"))) =
        Except.error "TypeError: Object.toLowerCase is not a function" ∧
      normalizeStatusVal (some (normalizeStatus (some "constructor"))) ≠
        Except.ok (normalizeStatus (some "constructor")) := by
  refine ⟨by decide, by decide, by decide⟩

/-- C9 (amended): `normalizeStatus` is idempotent away from the
prototype chain: for every input (including null/undefined/empty and
strings resolved by exact match, substring match, or the
unknown-status default) whose lowercased, trimmed form is neither
`constructor` nor `__proto__`, the output is one of the fixed points
`active`/`inactive`/`left` and a second application returns it
unchanged.  For the two anomalous inputs the exact-match lookup
returns the inherited non-string value (the `Object` constructor, or
`Object.prototype`), and the second application throws a TypeError
instead. -/
theorem normalizeStatus_idempotent_except_proto (s : Option String) :
    ((∀ v, s = some v → jsTrim (jsLower v) ≠ "constructor" ∧
        jsTrim (jsLower v) ≠ "__proto__") →
      normalizeStatusVal (some (normalizeStatus s)) =
        Except.ok (normalizeStatus s)) ∧
    (∀ v, s = some v → v ≠ "" → jsTrim (jsLower v) = "constructor" →
      normalizeStatus s = JsVal.obj "Object" ∧
      normalizeStatusVal (some (normalizeStatus s)) =
        Except.error "TypeError: Object.toLowerCase is not a function") ∧
    (∀ v, s = some v → v ≠ "" → jsTrim (jsLower v) = "__proto__" →
      normalizeStatus s = JsVal.obj "Object.prototype" ∧
      normalizeStatusVal (some (normalizeStatus s)) =
        Except.error
          "TypeError: Object.prototype.toLowerCase is not a function") := by
  refine ⟨?_, ?_, ?_⟩
  · intro h
    rcases normalizeStatus_str_mem s h with h1 | h1 | h1 <;> rw [h1] <;> decide
  · rintro v rfl hv hkey
    have heq : normalizeStatus (some v) = JsVal.obj "Object" := by
      simp only [normalizeStatus]
      rw [if_neg hv, hkey]
      decide
    exact ⟨heq, by rw [heq]; decide⟩
  · rintro v rfl hv hkey
    have heq : normalizeStatus (some v) = JsVal.obj "Object.prototype" := by
      simp only [normalizeStatus]
      rw [if_neg hv, hkey]
      decide
    exact ⟨heq, by rw [heq]; decide⟩

theorem normalizeStatus_idempotent_except_proto_witness :
    normalizeStatusVal (some (normalizeStatus (some "Active "))) =
        Except.ok (normalizeStatus (some "Active ")) ∧
      (normalizeStatus (some "__proto__") = JsVal.obj "Object.prototype" ∧
        normalizeStatusVal (some (normalizeStatus (some "__proto__"))) =
          Except.error
            "TypeError: Object.prototype.toLowerCase is not a function") :=
  ⟨(normalizeStatus_idempotent_except_proto (some "Active ")).1
      (fun v hv => by cases hv; exact ⟨by decide, by decide⟩),
   (normalizeStatus_idempotent_except_proto (some "__proto__")).2.2
      "__proto__" rfl (by decide) (by decide)⟩

/-! ## Embedding of src/normalizer/src/utils/firestoreOptimizer.ts:
configuration, adaptive batch sizing, cache, circuit breaker. -/

def FIRESTORE_BATCH_SIZE : Nat := 500
def CACHE_TTL_MS : Nat := 5 * 60 * 1000
def MAX_CACHE_BYTES : Nat := 100 * 1024 * 1024
def CIRCUIT_RESET_MS : Nat := 60 * 1000

/-- `adaptBatchSize` from firestoreOptimizer.ts.  The comparisons
`errorRate > 0.8` and `errorRate < 0.05` on `errorRate = errors/total`
are expressed by exact cross-multiplication (`errors*10 > total*8`,
`errors*20 < total`), and `Math.floor(current*0.7)` /
`Math.floor(current*1.2)` by `Nat` division; neither the branch choice
at the exact thresholds nor the last-bit float rounding of the products
can move the result outside `[100, 500]`. -/
def adaptBatchSize (current errors processed : Nat) : Nat :=
  if errors + processed = 0 then current
  else if errors * 10 > (errors + processed) * 8 then
    max 100 (current * 7 / 10)
  else if errors * 20 < errors + processed ∧ current < FIRESTORE_BATCH_SIZE then
    min FIRESTORE_BATCH_SIZE (current * 12 / 10)
  else current

/-- The batch size reached from the constructor's initial value
`currentBatchSize = FIRESTORE_BATCH_SIZE = 500` after any sequence of
`adaptBatchSize` calls with (errors, processed) observations. -/
def batchSizeRun (obs : List (Nat × Nat)) : Nat :=
  obs.foldl (fun c p => adaptBatchSize c p.1 p.2) FIRESTORE_BATCH_SIZE

/-- A cache entry: `data` is the resolved email → document-reference
map (references are document ids), `sizeBytes` the stored estimate. -/
structure CacheEntry where
  data : List (String × Nat)
  timestamp : Nat
  sizeBytes : Nat
deriving Repr, DecidableEq

/-- The reconciler cache; a JS `Map` in insertion order. -/
abbrev Cache := List (String × CacheEntry)

def cacheTotal (cache : Cache) : Nat :=
  (cache.map (fun p => p.2.sizeBytes)).sum

/-- JS `Map.set`: replace in place if the key exists, else append. -/
def cacheSet (cache : Cache) (key : String) (e : CacheEntry) : Cache :=
  if cache.any (fun p => p.1 = key) then
    cache.map (fun p => if p.1 = key then (key, e) else p)
  else cache ++ [(key, e)]

/-- `getFromCache`: the TTL test is strict (`now - timestamp > TTL`);
an expired entry is deleted and reported as a miss. -/
def getFromCache (cache : Cache) (key : String) (now : Nat) :
    Option (List (String × Nat)) × Cache :=
  match cache.find? (fun p => p.1 = key) with
  | none => (none, cache)
  | some p =>
    if now - p.2.timestamp > CACHE_TTL_MS then
      (none, cache.eraseP (fun q => q.1 = key))
    else (some p.2.data, cache)

/-- The scan of `evictOldestCache`: the first entry with the strictly
smallest timestamp (ties keep the earlier entry). -/
def oldestEntry (cache : Cache) : Option (String × CacheEntry) :=
  cache.foldl (fun acc p =>
    match acc with
    | none => some p
    | some q => if p.2.timestamp < q.2.timestamp then some p else some q) none

/-- `evictOldestCache`: delete the least-recently-populated entry. -/
def evictOldestCache (cache : Cache) : Cache :=
  match oldestEntry cache with
  | none => cache
  | some p => cache.eraseP (fun q => q.1 = p.1)

/-- `addToCache`: estimate `sizeBytes = data.size * 200`; if the current
total plus the estimate exceeds the limit, evict one oldest entry; then
insert unconditionally. -/
def addToCache (cache : Cache) (key : String) (data : List (String × Nat))
    (now : Nat) : Cache :=
  cacheSet
    (if cacheTotal cache + data.length * 200 > MAX_CACHE_BYTES then
       evictOldestCache cache
     else cache)
    key { data := data, timestamp := now, sizeBytes := data.length * 200 }

/-- Circuit breaker states. -/
inductive CircuitState where
  | CLOSED
  | OPEN
  | HALF_OPEN
deriving Repr, DecidableEq

/-- The circuit-breaker-relevant slice of the optimizer state. -/
structure Breaker where
  circuitState : CircuitState
  circuitOpenTime : Nat
  totalProcessed : Nat
  totalErrors : Nat
deriving Repr, DecidableEq

/-- The constructor's initial breaker state. -/
def initBreaker : Breaker :=
  { circuitState := .CLOSED, circuitOpenTime := 0,
    totalProcessed := 0, totalErrors := 0 }

/-- `canProceed`: in `OPEN`, proceed (moving to `HALF_OPEN`) only when
strictly more than `CIRCUIT_RESET_MS` has passed since opening. -/
def canProceed (b : Breaker) (now : Nat) : Bool × Breaker :=
  match b.circuitState with
  | .OPEN =>
    if now - b.circuitOpenTime > CIRCUIT_RESET_MS then
      (true, { b with circuitState := .HALF_OPEN })
    else (false, b)
  | _ => (true, b)

/-- The accumulation step of `updateMetrics`: add the invocation's
counts to the running totals. -/
def addTotals (b : Breaker) (processed errors : Nat) : Breaker :=
  { b with totalProcessed := b.totalProcessed + processed,
           totalErrors := b.totalErrors + errors }

/-- `updateMetrics`: accumulate the invocation's counts, then drive the
circuit from the cumulative error rate over all invocations
(`errors/total > 0.3` expressed as `errors*10 > total*3`). -/
def updateMetrics (b : Breaker) (processed errors now : Nat) : Breaker :=
  if b.totalProcessed + processed + (b.totalErrors + errors) = 0 then
    addTotals b processed errors
  else if (b.totalErrors + errors) * 10 >
      (b.totalProcessed + processed + (b.totalErrors + errors)) * 3 then
    if b.circuitState ≠ .OPEN then
      { addTotals b processed errors with
          circuitState := .OPEN
          circuitOpenTime := now }
    else addTotals b processed errors
  else if b.circuitState = .HALF_OPEN then
    { addTotals b processed errors with circuitState := .CLOSED }
  else addTotals b processed errors

/-! ## C8: adaptive batch size stays within [100, 500] -/

theorem adaptBatchSize_bounds (c e p : Nat) (h1 : 100 ≤ c) (h2 : c ≤ 500) :
    100 ≤ adaptBatchSize c e p ∧ adaptBatchSize c e p ≤ 500 := by
  unfold adaptBatchSize FIRESTORE_BATCH_SIZE
  split_ifs <;> omega

/-- C8: starting from the constructor's `currentBatchSize = 500`, every
sequence of `adaptBatchSize` calls, with any error/processed counts,
leaves the batch size within `[100, 500]`. -/
theorem batchSizeRun_bounds (obs : List (Nat × Nat)) :
    100 ≤ batchSizeRun obs ∧ batchSizeRun obs ≤ 500 := by
  suffices h : ∀ c, 100 ≤ c → c ≤ 500 →
      100 ≤ obs.foldl (fun c p => adaptBatchSize c p.1 p.2) c ∧
        obs.foldl (fun c p => adaptBatchSize c p.1 p.2) c ≤ 500 by
    exact h 500 (by omega) (by omega)
  induction obs with
  | nil => intro c h1 h2; exact ⟨h1, h2⟩
  | cons hd tl ih =>
    intro c h1 h2
    have hb := adaptBatchSize_bounds c hd.1 hd.2 h1 h2
    exact ih _ hb.1 hb.2

/-! ## C6: the cache size bound -/

theorem map_id_of_key_notMem (tl : Cache) (key : String) (e : CacheEntry)
    (h : ∀ p ∈ tl, p.1 ≠ key) :
    tl.map (fun p => if p.1 = key then (key, e) else p) = tl := by
  induction tl with
  | nil => rfl
  | cons hd tl2 ih =>
    simp only [List.map_cons]
    rw [if_neg (h hd (by simp)), ih (fun p hp => h p (by simp [hp]))]

theorem cacheTotal_cacheSet (cache : Cache) (key : String) (e : CacheEntry)
    (h : (cache.map Prod.fst).Nodup) :
    cacheTotal (cacheSet cache key e) ≤ cacheTotal cache + e.sizeBytes := by
  unfold cacheSet
  split_ifs with hmem
  · induction cache with
    | nil => simp [cacheTotal]
    | cons hd tl ih =>
      simp only [List.map_cons, List.nodup_cons] at h
      by_cases hk : hd.1 = key
      · have htl : ∀ p ∈ tl, p.1 ≠ key := by
          intro p hp hpk
          apply h.1
          rw [hk, ← hpk]
          exact List.mem_map_of_mem Prod.fst hp
        rw [List.map_cons, if_pos hk, map_id_of_key_notMem tl key e htl]
        simp only [cacheTotal, List.map_cons, List.sum_cons]
        omega
      · by_cases hmem2 : tl.any (fun p => p.1 = key)
        · have := ih h.2 hmem2
          simp only [List.map_cons, if_neg hk]
          simp only [cacheTotal, List.map_cons, List.sum_cons] at this ⊢
          omega
        · have : tl.map (fun p => if p.1 = key then (key, e) else p) = tl := by
            refine map_id_of_key_notMem tl key e ?_
            intro p hp hpk
            exact hmem2 (List.any_eq_true.2 ⟨p, hp, by simp [hpk]⟩)
          simp only [List.map_cons, if_neg hk, this]
          simp [cacheTotal]
  · simp [cacheTotal]

/-- C6 counterexample: a single `addToCache` call inserting an entry
whose estimated size (600000 resolved references × 200 bytes =
120000000 bytes) exceeds `MAX_CACHE_SIZE_MB * 1024 * 1024 = 104857600`
leaves the cache over the bound: `evictOldestCache` evicts at most one
entry (here none, the cache being empty) and the entry is inserted
unconditionally. -/
theorem addToCache_empty_total (key : String) (data : List (String × Nat))
    (now : Nat) :
    cacheTotal (addToCache [] key data now) = data.length * 200 := by
  unfold addToCache
  split_ifs <;>
    simp [evictOldestCache, oldestEntry, cacheSet, cacheTotal]

theorem addToCache_exceeds_bound :
    MAX_CACHE_BYTES <
      cacheTotal (addToCache [] "org:big" (List.replicate 600000 ("e", 0)) 0) := by
  rw [addToCache_empty_total, List.length_replicate]
  norm_num [MAX_CACHE_BYTES]

/-- C6 (amended): an `addToCache` insertion keeps the total estimated
cached bytes within `MAX_CACHE_SIZE_MB * 1024 * 1024` whenever the
pre-insertion total plus the new entry's estimate is within the bound
(given distinct cache keys, the JS `Map` invariant).  When the limit
would be exceeded, only a single least-recently-populated entry is
evicted before the unconditional insert, so the bound itself can be
exceeded. -/
theorem addToCache_bound_when_fits (cache : Cache) (key : String)
    (data : List (String × Nat)) (now : Nat)
    (hkeys : (cache.map Prod.fst).Nodup)
    (hfit : cacheTotal cache + data.length * 200 ≤ MAX_CACHE_BYTES) :
    cacheTotal (addToCache cache key data now) ≤ MAX_CACHE_BYTES := by
  unfold addToCache
  rw [if_neg (by omega)]
  have h := cacheTotal_cacheSet cache key
    { data := data, timestamp := now, sizeBytes := data.length * 200 } hkeys
  exact le_trans h hfit

theorem addToCache_bound_when_fits_witness :
    cacheTotal (addToCache [] "org:a" [("x", 1)] 5) ≤ MAX_CACHE_BYTES :=
  addToCache_bound_when_fits [] "org:a" [("x", 1)] 5 (by simp)
    (by norm_num [cacheTotal, MAX_CACHE_BYTES])

/-- C7 counterexample: a cache entry whose age is exactly
`CACHE_TTL_MS` is returned by `getFromCache`, not treated as expired:
the TTL test `now - timestamp > CACHE_TTL_MS` is strict. -/
theorem getFromCache_at_ttl_hit :
    (getFromCache [("org:a", ⟨[("x", 1)], 0, 200⟩)] "org:a" CACHE_TTL_MS).1 =
        some [("x", 1)] ∧
      (getFromCache [("org:a", ⟨[("x", 1)], 0, 200⟩)] "org:a"
          CACHE_TTL_MS).1 ≠ none := by
  constructor <;> decide

/-- C7 (amended): a cache entry is treated as expired (a `null` miss)
exactly when its age strictly exceeds `CACHE_TTL_MS`; at an age of
exactly `CACHE_TTL_MS` the cached data is still returned. -/
theorem getFromCache_ttl (cache : Cache) (key : String) (now : Nat)
    (p : String × CacheEntry)
    (hfind : cache.find? (fun q => q.1 = key) = some p) :
    (now - p.2.timestamp ≤ CACHE_TTL_MS →
      (getFromCache cache key now).1 = some p.2.data) ∧
    (now - p.2.timestamp > CACHE_TTL_MS →
      (getFromCache cache key now).1 = none) := by
  unfold getFromCache
  rw [hfind]
  dsimp only
  constructor <;> intro h
  · rw [if_neg (by omega)]
  · rw [if_pos h]

theorem getFromCache_ttl_witness :
    (getFromCache [("org:a", ⟨[("x", 1)], 0, 200⟩)] "org:a"
        CACHE_TTL_MS).1 = some [("x", 1)] :=
  (getFromCache_ttl [("org:a", ⟨[("x", 1)], 0, 200⟩)] "org:a" CACHE_TTL_MS
      ("org:a", ⟨[("x", 1)], 0, 200⟩) (by decide)).1 (by decide)

/-! ## C4: the circuit breaker state machine -/

/-- C4 counterexample: a fully successful invocation (5 processed, 0
errors) performed in `HALF_OPEN` does not close the circuit.  From the
initial state, an invocation with 1 processed and 9 errors opens the
circuit (cumulative rate 0.9 > 0.3); after the reset window the next
`canProceed` moves to `HALF_OPEN`; the following invocation succeeds
completely, yet `updateMetrics` re-opens the circuit because the
cumulative error rate 9/15 still exceeds 0.3 — the claim's
"a successful invocation in HALF_OPEN transitions the state back to
CLOSED" is false on this trace. -/
theorem circuit_halfOpen_success_reopens :
    (canProceed (updateMetrics initBreaker 1 9 0) 60001).1 = true ∧
    (canProceed (updateMetrics initBreaker 1 9 0) 60001).2.circuitState =
        CircuitState.HALF_OPEN ∧
    (updateMetrics (canProceed (updateMetrics initBreaker 1 9 0) 60001).2
        5 0 60002).circuitState = CircuitState.OPEN ∧
    (updateMetrics (canProceed (updateMetrics initBreaker 1 9 0) 60001).2
        5 0 60002).circuitState ≠ CircuitState.CLOSED := by
  refine ⟨by decide, by decide, by decide, by decide⟩

/-- C4 (amended): the circuit breaker machine as implemented.  Whenever
the cumulative error rate after an invocation exceeds
`ERROR_THRESHOLD = 0.3`, the state becomes `OPEN` and `canProceed`
refuses new work until strictly more than `CIRCUIT_RESET_MS` has
elapsed since opening, after which the next attempt enters `HALF_OPEN`.
An invocation in `HALF_OPEN` transitions to `CLOSED` exactly when it
leaves the cumulative error rate at or below the threshold, and back to
`OPEN` when the cumulative rate still exceeds it: success or failure of
the individual invocation matters only through the cumulative rate. -/
theorem circuitBreaker_machine (b : Breaker) (p e now : Nat) :
    (b.circuitState = .OPEN → now - b.circuitOpenTime ≤ CIRCUIT_RESET_MS →
      canProceed b now = (false, b)) ∧
    (b.circuitState = .OPEN → now - b.circuitOpenTime > CIRCUIT_RESET_MS →
      canProceed b now = (true, { b with circuitState := .HALF_OPEN })) ∧
    (b.circuitState ≠ .OPEN → canProceed b now = (true, b)) ∧
    (b.totalProcessed + p + (b.totalErrors + e) ≠ 0 →
      (b.totalErrors + e) * 10 > (b.totalProcessed + p + (b.totalErrors + e)) * 3 →
      (updateMetrics b p e now).circuitState = .OPEN) ∧
    (b.totalProcessed + p + (b.totalErrors + e) ≠ 0 →
      (b.totalErrors + e) * 10 ≤ (b.totalProcessed + p + (b.totalErrors + e)) * 3 →
      b.circuitState = .HALF_OPEN →
      (updateMetrics b p e now).circuitState = .CLOSED) ∧
    (b.totalProcessed + p + (b.totalErrors + e) ≠ 0 →
      (b.totalErrors + e) * 10 ≤ (b.totalProcessed + p + (b.totalErrors + e)) * 3 →
      b.circuitState ≠ .HALF_OPEN →
      (updateMetrics b p e now).circuitState = b.circuitState) := by
  refine ⟨?_, ?_, ?_, ?_, ?_, ?_⟩
  · intro h1 h2
    simp only [canProceed, h1]
    rw [if_neg (by omega)]
  · intro h1 h2
    simp only [canProceed, h1]
    rw [if_pos (by omega)]
  · intro h1
    cases hs : b.circuitState
    · simp [canProceed, hs]
    · exact absurd hs h1
    · simp [canProceed, hs]
  · intro h1 h2
    simp only [updateMetrics]
    rw [if_neg h1, if_pos h2]
    by_cases hop : b.circuitState = CircuitState.OPEN
    · rw [if_neg (by simp [hop])]
      simp [addTotals, hop]
    · rw [if_pos hop]
  · intro h1 h2 h3
    simp only [updateMetrics]
    rw [if_neg h1, if_neg (by omega), if_pos h3]
  · intro h1 h2 h3
    simp only [updateMetrics]
    rw [if_neg h1, if_neg (by omega), if_neg h3]
    simp [addTotals]

theorem circuitBreaker_machine_witness :
    canProceed ⟨.OPEN, 0, 1, 9⟩ 60001 = (true, ⟨.HALF_OPEN, 0, 1, 9⟩) ∧
      (updateMetrics ⟨.HALF_OPEN, 0, 1, 9⟩ 5 0 60002).circuitState =
        CircuitState.OPEN ∧
      canProceed ⟨.OPEN, 0, 1, 9⟩ 50000 = (false, ⟨.OPEN, 0, 1, 9⟩) ∧
      (updateMetrics ⟨.HALF_OPEN, 0, 16, 6⟩ 5 0 60002).circuitState =
        CircuitState.CLOSED :=
  ⟨(circuitBreaker_machine ⟨.OPEN, 0, 1, 9⟩ 5 0 60001).2.1 rfl (by decide),
   (circuitBreaker_machine ⟨.HALF_OPEN, 0, 1, 9⟩ 5 0 60002).2.2.2.1
     (by decide) (by decide),
   (circuitBreaker_machine ⟨.OPEN, 0, 1, 9⟩ 5 0 50000).1 rfl (by decide),
   (circuitBreaker_machine ⟨.HALF_OPEN, 0, 16, 6⟩ 5 0 60002).2.2.2.2.1
     (by decide) (by decide) rfl⟩

/-! ## Embedding of src/kafka-bridge/src/http.ts -/

/-- The outcome of one HTTP attempt: a response with a status code and
body text, or a network/timeout error. -/
inductive HttpAttempt where
  | resp (status : Nat) (text : String)
  | netErr (msg : String)
deriving Repr, DecidableEq

/-- `isRetryable` from http.ts: 5xx and 429. -/
def isRetryable (status : Nat) : Bool := 500 ≤ status || status == 429

/-- The retry loop of `postJson`, abstracted over the per-attempt
transport outcome (`attempts n` is the outcome of attempt `n`); the
loop runs attempts `0..maxRetries`.  `Except.error` models the final
`throw lastError`. -/
def postJsonLoop (attempts : Nat → HttpAttempt) (maxRetries attempt : Nat) :
    Except String (Nat × String) :=
  match attempts attempt with
  | .resp status text =>
    if status = 409 then .ok (200, text)
    else if 200 ≤ status ∧ status < 300 then .ok (status, text)
    else if isRetryable status = false then .ok (status, text)
    else if _h : attempt < maxRetries then
      postJsonLoop attempts maxRetries (attempt + 1)
    else .ok (status, text)
  | .netErr msg =>
    if _h : attempt < maxRetries then
      postJsonLoop attempts maxRetries (attempt + 1)
    else .error msg
termination_by maxRetries - attempt
decreasing_by all_goals omega

/-- `postJson` from http.ts: run the attempt loop from attempt 0. -/
def postJson (attempts : Nat → HttpAttempt) (maxRetries : Nat) :
    Except String (Nat × String) :=
  postJsonLoop attempts maxRetries 0

/-- C5: the retry policy of `postJson`.  A 409 response is returned as
success (status 200) on the attempt it occurs and is never retried; a
2xx response is returned as-is; a non-retryable non-2xx status (every
4xx except 429, in particular) is returned to the caller without
retrying; a retryable status (5xx or 429) or a network error is retried
while attempts remain (the loop grants up to `maxRetries` additional
attempts after the first), and after exhaustion the last response is
returned (a network error is thrown). -/
theorem postJson_retry_policy (attempts : Nat → HttpAttempt)
    (maxRetries attempt status : Nat) (text msg : String) :
    (attempts attempt = .resp 409 text →
      postJsonLoop attempts maxRetries attempt = .ok (200, text)) ∧
    (attempts attempt = .resp status text → 200 ≤ status → status < 300 →
      postJsonLoop attempts maxRetries attempt = .ok (status, text)) ∧
    (attempts attempt = .resp status text → status ≠ 409 →
      isRetryable status = false → ¬(200 ≤ status ∧ status < 300) →
      postJsonLoop attempts maxRetries attempt = .ok (status, text)) ∧
    (attempts attempt = .resp status text → isRetryable status = true →
      attempt < maxRetries →
      postJsonLoop attempts maxRetries attempt =
        postJsonLoop attempts maxRetries (attempt + 1)) ∧
    (attempts attempt = .resp status text → isRetryable status = true →
      maxRetries ≤ attempt →
      postJsonLoop attempts maxRetries attempt = .ok (status, text)) ∧
    (attempts attempt = .netErr msg → attempt < maxRetries →
      postJsonLoop attempts maxRetries attempt =
        postJsonLoop attempts maxRetries (attempt + 1)) ∧
    (attempts attempt = .netErr msg → maxRetries ≤ attempt →
      postJsonLoop attempts maxRetries attempt = .error msg) := by
  refine ⟨?_, ?_, ?_, ?_, ?_, ?_, ?_⟩ <;> intro h1
  · rw [postJsonLoop, h1]
    simp
  · intro h2 h3
    rw [postJsonLoop, h1]
    simp only
    rw [if_neg (by omega), if_pos ⟨h2, h3⟩]
  · intro h2 h3 h4
    rw [postJsonLoop, h1]
    simp only
    rw [if_neg h2, if_neg h4, if_pos h3]
  · intro h2 h3
    have h409 : status ≠ 409 := by
      intro hv
      rw [hv] at h2
      simp [isRetryable] at h2
    have h2xx : ¬(200 ≤ status ∧ status < 300) := by
      intro hv
      simp only [isRetryable, Bool.or_eq_true, decide_eq_true_eq,
        beq_iff_eq] at h2
      omega
    rw [postJsonLoop, h1]
    simp only
    rw [if_neg h409, if_neg h2xx, if_neg (by simp [h2]), dif_pos h3]
  · intro h2 h3
    have h409 : status ≠ 409 := by
      intro hv
      rw [hv] at h2
      simp [isRetryable] at h2
    have h2xx : ¬(200 ≤ status ∧ status < 300) := by
      intro hv
      simp only [isRetryable, Bool.or_eq_true, decide_eq_true_eq,
        beq_iff_eq] at h2
      omega
    rw [postJsonLoop, h1]
    simp only
    rw [if_neg h409, if_neg h2xx, if_neg (by simp [h2]), dif_neg (by omega)]
  · intro h2
    rw [postJsonLoop, h1]
    simp only
    rw [dif_pos h2]
  · intro h2
    rw [postJsonLoop, h1]
    simp only
    rw [dif_neg (by omega)]

theorem postJson_retry_policy_witness :
    postJsonLoop (fun _ => .resp 409 "dup") 8 0 = .ok (200, "dup") ∧
      postJsonLoop (fun _ => .resp 404 "nf") 8 0 = .ok (404, "nf") ∧
      postJsonLoop (fun n => if n = 0 then .resp 503 "bad" else .resp 201 "ok")
          8 0 =
        postJsonLoop (fun n => if n = 0 then .resp 503 "bad" else .resp 201 "ok")
          8 1 ∧
      postJsonLoop (fun _ => .netErr "boom") 0 0 = .error "boom" :=
  ⟨(postJson_retry_policy (fun _ => .resp 409 "dup") 8 0 0 "dup" "").1 rfl,
   (postJson_retry_policy (fun _ => .resp 404 "nf") 8 0 404 "nf" "").2.2.1 rfl
     (by decide) (by decide) (by decide),
   (postJson_retry_policy
       (fun n => if n = 0 then .resp 503 "bad" else .resp 201 "ok")
       8 0 503 "bad" "").2.2.2.1 rfl (by decide) (by decide),
   (postJson_retry_policy (fun _ => .netErr "boom") 0 0 0 "" "boom").2.2.2.2.2.2
     rfl (by decide)⟩

/-! ## The reconciler's prepare step
(deduplicateEmails / prepareEmployeeData in firestoreOptimizer.ts) -/

/-- JS truthiness of an optional string (`undefined`/`null`/`''` are
falsy). -/
def optTruthy : Option String → Bool
  | none => false
  | some s => s != ""

/-- A normalized upsert message handed to `processUpserts`. -/
structure UpsertMsg where
  email : String
  statusInOrg : Option String
  eventId : Option String
deriving Repr, DecidableEq

/-- `deduplicateEmails`: walk the input in reverse and keep the first
sighting (i.e. the input's last occurrence) of each non-empty
normalized email, in sighting order (JS `Map` keys order). -/
def deduplicateEmails (msgs : List UpsertMsg) : List String :=
  msgs.reverse.foldl (fun acc m =>
    if jsNormEmail m.email != "" && !(acc.contains (jsNormEmail m.email)) then
      acc ++ [jsNormEmail m.email]
    else acc) []

/-- JS `message.statusInOrg || 'active'`. -/
def jsStatusOr : Option String → String
  | none => "active"
  | some v => if v = "" then "active" else v

/-- The employee document fields written by `processUpserts`. -/
structure EmployeeData where
  email : String
  statusInOrg : String
  presentInLatest : Bool
  lastSeenEpoch : Nat
  updatedAt : Nat
  source : String
  lastEventId : Option String
deriving Repr, DecidableEq

/-- The `employeeData` object `prepareEmployeeData` composes from one
message. -/
def mkEmployeeData (m : UpsertMsg) (epoch now : Nat) : EmployeeData :=
  { email := jsNormEmail m.email,
    statusInOrg := jsStatusOr m.statusInOrg,
    presentInLatest := true,
    lastSeenEpoch := epoch,
    updatedAt := now,
    source := "kafka:upsert",
    lastEventId := if optTruthy m.eventId then m.eventId else none }

/-- One element of the list `prepareEmployeeData` builds: the update
for one email, with the resolved document reference if it exists. -/
structure PreparedItem where
  email : String
  data : EmployeeData
  ref : Option Nat
  isNew : Bool
deriving Repr, DecidableEq

/-- The reverse-order scan of `prepareEmployeeData`: `seen` is the
`processedEmails` set. -/
def prepareAux (existing : List (String × Nat)) (epoch now : Nat) :
    List UpsertMsg → List String → List PreparedItem
  | [], _ => []
  | m :: rest, seen =>
    if jsNormEmail m.email = "" ∨ seen.contains (jsNormEmail m.email) then
      prepareAux existing epoch now rest seen
    else
      { email := jsNormEmail m.email,
        data := mkEmployeeData m epoch now,
        ref := (existing.find? (fun p => p.1 = jsNormEmail m.email)).map Prod.snd,
        isNew :=
          ((existing.find? (fun p => p.1 = jsNormEmail m.email)).map
            Prod.snd).isNone } ::
        prepareAux existing epoch now rest (jsNormEmail m.email :: seen)

/-- `prepareEmployeeData`: process the messages in reverse, keeping the
last occurrence of each email; `existing` is the resolved
email → document-reference map. -/
def prepareEmployeeData (msgs : List UpsertMsg) (existing : List (String × Nat))
    (epoch now : Nat) : List PreparedItem :=
  prepareAux existing epoch now msgs.reverse []

/-! ## The document store model: employees, organization -/

/-- An employee document (`id` models the opaque Firestore doc id). -/
structure EmpDoc where
  id : Nat
  email : String
  statusInOrg : JsVal
  presentInLatest : Bool
  lastSeenEpoch : Nat
  updatedAt : Nat
  source : String
  lastEventId : Option String
deriving Repr, DecidableEq

/-- The organization document. -/
structure OrgDoc where
  currentEpoch : Nat
  lastFinalizedEpoch : Option Nat
  name : Option String
  updatedAt : Nat
deriving Repr, DecidableEq

/-- One organization's slice of the store. -/
structure OrgState where
  org : OrgDoc
  employees : List EmpDoc
deriving Repr, DecidableEq

/-- `docRef.update` / in-place `set-merge` on the first document
matching a predicate (the `limit(1)` query result). -/
def updateFirst (l : List EmpDoc) (p : EmpDoc → Bool) (f : EmpDoc → EmpDoc) :
    List EmpDoc :=
  match l with
  | [] => []
  | x :: xs => if p x then f x :: xs else x :: updateFirst xs p f

/-! ## Embedding of handleIngestDeltas (src/normalizer/src/handlers/ingestDeltas.ts) -/

/-- A delta message from the Kafka bridge. -/
structure DeltaMsg where
  email : Option String
  deltaType : String
  eventId : Option String
deriving Repr, DecidableEq

/-- The delta transition table: `statusInOrg` and `presentInLatest` for
each known `deltaType`; `none` for unknown types (skipped). -/
def deltaStatus : String → Option (JsVal × Bool)
  | "left" => some (.str "left", false)
  | "inactive" => some (.str "inactive", false)
  | "reactivated" => some (.str "active", true)
  | _ => none

/-- The update object `handleIngestDeltas` writes: only `statusInOrg`,
`presentInLatest`, `updatedAt`, `source` and (when the message carries
a truthy `eventId`) `lastEventId`. -/
def deltaUpdate (m : DeltaMsg) (st : JsVal) (pres : Bool) (now : Nat)
    (e : EmpDoc) : EmpDoc :=
  { e with statusInOrg := st, presentInLatest := pres, updatedAt := now,
           source := "kafka:delta",
           lastEventId := if optTruthy m.eventId then m.eventId else e.lastEventId }

/-- The per-message body of `handleIngestDeltas`: validate the email,
look up the employee (`limit(1)`), resolve the transition, update the
found document; the Bool reports processed (`true`) vs skipped. -/
def applyDelta (emps : List EmpDoc) (m : DeltaMsg) (now : Nat) :
    List EmpDoc × Bool :=
  if !(optTruthy m.email) || !(isValidEmail m.email) then (emps, false)
  else
    match emps.find? (fun e => e.email = jsNormEmail (m.email.getD "")) with
    | none => (emps, false)
    | some _ =>
      match deltaStatus m.deltaType with
      | none => (emps, false)
      | some (st, pres) =>
        (updateFirst emps (fun e => e.email = jsNormEmail (m.email.getD ""))
          (deltaUpdate m st pres now), true)

/-- `handleIngestDeltas`: process the messages in order, counting
processed and skipped. -/
def handleIngestDeltas (emps : List EmpDoc) (msgs : List DeltaMsg) (now : Nat) :
    List EmpDoc × Nat × Nat :=
  msgs.foldl (fun acc m =>
    if (applyDelta acc.1 m now).2 then
      ((applyDelta acc.1 m now).1, acc.2.1 + 1, acc.2.2)
    else ((applyDelta acc.1 m now).1, acc.2.1, acc.2.2 + 1)) (emps, 0, 0)

/-! ## Embedding of finalizeRun (the finalizer sweep) -/

/-- The sweep predicate: `presentInLatest == true ∧ lastSeenEpoch < epoch`. -/
def matchesSweep (E : Nat) (e : EmpDoc) : Bool :=
  e.presentInLatest && decide (e.lastSeenEpoch < E)

/-- The Firestore sort key of the sweep query: `orderBy('lastSeenEpoch')`
with the implicit document-id tiebreak. -/
def sweepKey (e : EmpDoc) : Nat × Nat := (e.lastSeenEpoch, e.id)

def keyLt (a b : Nat × Nat) : Prop := a.1 < b.1 ∨ (a.1 = b.1 ∧ a.2 < b.2)

def keyLe (a b : Nat × Nat) : Prop := a.1 < b.1 ∨ (a.1 = b.1 ∧ a.2 ≤ b.2)

instance : DecidableRel keyLt := fun a b => by unfold keyLt; infer_instance

instance : DecidableRel keyLe := fun a b => by unfold keyLe; infer_instance

def sweepLe (a b : EmpDoc) : Prop := keyLe (sweepKey a) (sweepKey b)

instance : DecidableRel sweepLe := fun a b => by unfold sweepLe; infer_instance

instance : IsTotal EmpDoc sweepLe :=
  ⟨fun a b => by unfold sweepLe keyLe; omega⟩

instance : IsTrans EmpDoc sweepLe :=
  ⟨fun a b c h1 h2 => by unfold sweepLe keyLe at h1 h2 ⊢; omega⟩

/-- `startAfter(cursor)`: strictly after the cursor document in the
query order. -/
def afterCursor (cursor : Option (Nat × Nat)) (e : EmpDoc) : Bool :=
  match cursor with
  | none => true
  | some c => decide (keyLt c (sweepKey e))

def pageSize : Nat := 1000

/-- One page of the sweep query: matching documents after the cursor,
in `(lastSeenEpoch, id)` order, limited to `pageSize`. -/
def sweepQuery (E : Nat) (cursor : Option (Nat × Nat)) (emps : List EmpDoc) :
    List EmpDoc :=
  (List.insertionSort sweepLe
    ((emps.filter (matchesSweep E)).filter (afterCursor cursor))).take pageSize

/-- The page's atomic batch: set `presentInLatest := false` and bump
`updatedAt` on every document of the page. -/
def applySweepBatch (emps : List EmpDoc) (page : List EmpDoc) (now : Nat) :
    List EmpDoc :=
  emps.map (fun e =>
    if page.any (fun d => d.id = e.id) then
      { e with presentInLatest := false, updatedAt := now }
    else e)

/-- The `while (true)` pagination loop of `finalizeRun`, with explicit
fuel (each iteration flips at least one matching document, so
`employees.length + 1` iterations always suffice).  Break on an empty
page; after a short page (< `pageSize`) stop; otherwise continue after
the page's last document. -/
def finalizeLoop (E now : Nat) : Nat → Option (Nat × Nat) → List EmpDoc →
    List EmpDoc
  | 0, _, emps => emps
  | fuel + 1, cursor, emps =>
    match (sweepQuery E cursor emps).getLast? with
    | none => emps
    | some last =>
      if (sweepQuery E cursor emps).length < pageSize then
        applySweepBatch emps (sweepQuery E cursor emps) now
      else
        finalizeLoop E now fuel (some (sweepKey last))
          (applySweepBatch emps (sweepQuery E cursor emps) now)

/-- `finalizeRun`: run the sweep, then write
`{currentEpoch, lastFinalizedEpoch, updatedAt}` on the organization. -/
def finalizeRun (s : OrgState) (E now : Nat) : OrgState :=
  { org := { s.org with
      currentEpoch := E
      lastFinalizedEpoch := some E
      updatedAt := now },
    employees := finalizeLoop E now (s.employees.length + 1) none s.employees }

/-! ## Embedding of beginRun and the /ingest/email upsert path -/

/-- `beginRun`: read `currentEpoch` (0 when missing), write the
increment (merge), optionally set the display name. -/
def beginRun (s : OrgState) (orgName : Option String) (now : Nat) :
    OrgState × Nat :=
  ({ s with org := { s.org with
      currentEpoch := s.org.currentEpoch + 1
      updatedAt := now
      name := if optTruthy orgName then orgName else s.org.name } },
   s.org.currentEpoch + 1)

/-- A fresh auto-generated document id. -/
def freshId (emps : List EmpDoc) : Nat :=
  (emps.map (fun e => e.id)).foldr max 0 + 1

/-- One row of `handleUpserts` (email channel): look up by email;
`set-merge` on the existing document or create a new one. -/
def applyEmailUpsert (emps : List EmpDoc) (n : NormalizedEmployee)
    (epoch now : Nat) : List EmpDoc :=
  match emps.find? (fun e => e.email = n.email) with
  | some _ =>
    updateFirst emps (fun e => e.email = n.email) (fun e =>
      { e with email := n.email, statusInOrg := n.statusInOrg,
               presentInLatest := true, lastSeenEpoch := epoch,
               updatedAt := now, source := "email:upsert" })
  | none =>
    emps ++ [{ id := freshId emps, email := n.email,
               statusInOrg := n.statusInOrg, presentInLatest := true,
               lastSeenEpoch := epoch, updatedAt := now,
               source := "email:upsert", lastEventId := none }]

/-- `handleUpserts` from the email handler: begin an epoch, process the
rows one by one (skipping rows `normalizeRow` rejects), then finalize
the epoch.  Returns the new state and the internal
(processed, skipped) counters — `processed` counts exactly the
documents written or updated. -/
def handleUpserts (s : OrgState) (rows : List RawRow) (orgName : Option String)
    (now : Nat) : OrgState × Nat × Nat :=
  match beginRun s orgName now with
  | (s1, epoch) =>
    let r := rows.foldl (fun acc row =>
      match normalizeRow row with
      | none => (acc.1, acc.2.1, acc.2.2 + 1)
      | some n => (applyEmailUpsert acc.1 n epoch now, acc.2.1 + 1, acc.2.2))
      (s1.employees, 0, 0)
    (finalizeRun { s1 with employees := r.1 } epoch now, r.2.1, r.2.2)

/-- The body of the `/ingest/email` success response. -/
structure EmailResponse where
  success : Bool
  processed : Nat
  kind : String
deriving Repr, DecidableEq

/-- `handleEmail` (JSON-body, default `kind = upserts` path): `none`
models the 400 responses for a missing `orgId` or empty `rows`; on
success the response reports `processed: rows.length` — the raw parsed
row count, not the number of rows actually written. -/
def handleEmail (s : OrgState) (orgId : String) (orgName : Option String)
    (rows : List RawRow) (now : Nat) : Option (OrgState × EmailResponse) :=
  if orgId = "" then none
  else if rows.isEmpty then none
  else some ((handleUpserts s rows orgName now).1,
    { success := true, processed := rows.length, kind := "upserts" })

/-- A two-row input whose second row has an invalid email. -/
def sampleRows : List RawRow :=
  [{ email := some "a@b.c", statusInOrg := some "active" },
   { email := some "bad-email", statusInOrg := none }]

/-- An organization with no employees and no completed run. -/
def emptyOrgState : OrgState :=
  { org := { currentEpoch := 0, lastFinalizedEpoch := none, name := none,
             updatedAt := 0 },
    employees := [] }

/-! ## C1: the prepare step implements last-write-wins deduplication -/

theorem prepareAux_mem (existing : List (String × Nat)) (epoch now : Nat) :
    ∀ (l : List UpsertMsg) (seen : List String) (item : PreparedItem),
      item ∈ prepareAux existing epoch now l seen →
      seen.contains item.email = false ∧ item.email ≠ "" ∧
      ∃ m, l.find? (fun x => jsNormEmail x.email = item.email) = some m ∧
        item.email = jsNormEmail m.email ∧
        item.data = mkEmployeeData m epoch now := by
  intro l
  induction l with
  | nil => intro seen item h; simp [prepareAux] at h
  | cons m rest ih =>
    intro seen item h
    simp only [prepareAux] at h
    by_cases hc : jsNormEmail m.email = "" ∨ seen.contains (jsNormEmail m.email)
    · rw [if_pos hc] at h
      obtain ⟨h1, h2, mm, hfind, hem, hdata⟩ := ih seen item h
      have hne : jsNormEmail m.email ≠ item.email := by
        intro he
        rcases hc with hc | hc
        · exact h2 (by rw [← he, hc])
        · rw [he] at hc
          rw [h1] at hc
          exact Bool.false_ne_true hc
      refine ⟨h1, h2, mm, ?_, hem, hdata⟩
      rw [List.find?_cons_of_neg _ (by simpa using hne)]
      exact hfind
    · rw [if_neg hc] at h
      push_neg at hc
      rcases List.mem_cons.1 h with hh | hh
      · subst hh
        refine ⟨?_, hc.1, m, ?_, rfl, rfl⟩
        · by_cases hs : seen.contains (jsNormEmail m.email)
          · exact absurd hs hc.2
          · simpa using hs
        · exact List.find?_cons_of_pos _ (by simp)
      · obtain ⟨h1, h2, mm, hfind, hem, hdata⟩ :=
          ih (jsNormEmail m.email :: seen) item hh
        rw [List.contains_cons, Bool.or_eq_false_iff] at h1
        have hne : jsNormEmail m.email ≠ item.email := by
          intro he
          have := h1.1
          rw [he] at this
          simp at this
        refine ⟨h1.2, h2, mm, ?_, hem, hdata⟩
        rw [List.find?_cons_of_neg _ (by simpa using hne)]
        exact hfind

theorem prepareAux_nodup (existing : List (String × Nat)) (epoch now : Nat) :
    ∀ (l : List UpsertMsg) (seen : List String),
      ((prepareAux existing epoch now l seen).map
        (fun i => i.email)).Nodup := by
  intro l
  induction l with
  | nil => intro seen; simp [prepareAux]
  | cons m rest ih =>
    intro seen
    simp only [prepareAux]
    by_cases hc : jsNormEmail m.email = "" ∨ seen.contains (jsNormEmail m.email)
    · rw [if_pos hc]; exact ih seen
    · rw [if_neg hc]
      simp only [List.map_cons, List.nodup_cons]
      refine ⟨?_, ih (jsNormEmail m.email :: seen)⟩
      intro hmem
      obtain ⟨item, hitem, heq⟩ := List.mem_map.1 hmem
      obtain ⟨h1, -, -⟩ :=
        prepareAux_mem existing epoch now rest
          (jsNormEmail m.email :: seen) item hitem
      rw [heq, List.contains_cons] at h1
      simp at h1

theorem prepareAux_complete (existing : List (String × Nat)) (epoch now : Nat) :
    ∀ (l : List UpsertMsg) (seen : List String) (m : UpsertMsg),
      m ∈ l → jsNormEmail m.email ≠ "" →
      seen.contains (jsNormEmail m.email) = true ∨
        jsNormEmail m.email ∈
          (prepareAux existing epoch now l seen).map (fun i => i.email) := by
  intro l
  induction l with
  | nil => intro seen m hm; simp at hm
  | cons m0 rest ih =>
    intro seen m hm hne
    simp only [prepareAux]
    by_cases hc : jsNormEmail m0.email = "" ∨ seen.contains (jsNormEmail m0.email)
    · rw [if_pos hc]
      rcases List.mem_cons.1 hm with hh | hh
      · subst hh
        rcases hc with hc | hc
        · exact absurd hc hne
        · exact Or.inl hc
      · exact ih seen m hh hne
    · rw [if_neg hc]
      rcases List.mem_cons.1 hm with hh | hh
      · subst hh
        right
        simp
      · rcases ih (jsNormEmail m0.email :: seen) m hh hne with hcont | hmem
        · rw [List.contains_cons, Bool.or_eq_true] at hcont
          rcases hcont with hcont | hcont
          · right
            simp only [List.map_cons, List.mem_cons]
            left
            exact (beq_iff_eq.1 hcont)
          · exact Or.inl hcont
        · right
          simp only [List.map_cons, List.mem_cons]
          exact Or.inr hmem

theorem decide_eq_beq (x a : String) : (decide (x = a)) = (x == a) := by
  rw [Bool.eq_iff_iff]
  simp

theorem contains_append_singleton (x a : String) (l : List String) :
    (l ++ [a]).contains x = (l.contains x || (x == a)) := by
  induction l with
  | nil => simp [List.contains_cons, decide_eq_beq]
  | cons b t ih => simp [List.contains_cons, ih, Bool.or_assoc, decide_eq_beq]

theorem dedupAux_eq_prepareAux (existing : List (String × Nat))
    (epoch now : Nat) :
    ∀ (l : List UpsertMsg) (acc : List String) (seen : List String),
      (∀ e : String, acc.contains e = seen.contains e) →
      l.foldl (fun acc m =>
          if jsNormEmail m.email != "" && !(acc.contains (jsNormEmail m.email))
          then acc ++ [jsNormEmail m.email] else acc) acc =
        acc ++ (prepareAux existing epoch now l seen).map (fun i => i.email) := by
  intro l
  induction l with
  | nil => intro acc seen _; simp [prepareAux]
  | cons m rest ih =>
    intro acc seen hacc
    simp only [List.foldl_cons, prepareAux]
    by_cases hc : jsNormEmail m.email = "" ∨ seen.contains (jsNormEmail m.email)
    · have hcond : (jsNormEmail m.email != "" &&
          !(acc.contains (jsNormEmail m.email))) = false := by
        rw [hacc (jsNormEmail m.email)]
        rcases hc with hc | hc
        · simp [hc]
        · rw [hc]
          simp
      simp only [hcond, Bool.false_eq_true, if_false]
      rw [if_pos hc]
      exact ih acc seen hacc
    · push_neg at hc
      have hcond : (jsNormEmail m.email != "" &&
          !(acc.contains (jsNormEmail m.email))) = true := by
        rw [hacc (jsNormEmail m.email)]
        simp only [Bool.and_eq_true, bne_iff_ne, ne_eq, Bool.not_eq_true]
        refine ⟨hc.1, ?_⟩
        have := hc.2
        by_cases hb : seen.contains (jsNormEmail m.email)
        · exact absurd hb this
        · simpa using hb
      simp only [hcond, if_true]
      rw [if_neg (by push_neg; exact hc)]
      have hinv : ∀ e : String,
          (acc ++ [jsNormEmail m.email]).contains e =
            ((jsNormEmail m.email :: seen).contains e) := by
        intro e
        rw [contains_append_singleton, List.contains_cons, hacc e]
        exact Bool.or_comm _ _
      rw [ih (acc ++ [jsNormEmail m.email]) (jsNormEmail m.email :: seen) hinv]
      simp

/-- C1: for one `processUpserts` invocation, the update prepared for
each email is the one from the last occurrence of that email in the
input: the prepared list carries each normalized (lowercased, trimmed)
non-empty email exactly once (and in exactly the order
`deduplicateEmails` produces), every input message with a non-empty
normalized email is represented, and each prepared item's data —
`statusInOrg` included — is composed from the input's last occurrence
of that email (the first occurrence of the reversed input). -/
theorem prepareEmployeeData_lastWins (msgs : List UpsertMsg)
    (existing : List (String × Nat)) (epoch now : Nat) :
    ((prepareEmployeeData msgs existing epoch now).map
        (fun i => i.email)).Nodup ∧
      deduplicateEmails msgs =
        (prepareEmployeeData msgs existing epoch now).map (fun i => i.email) ∧
      (∀ item ∈ prepareEmployeeData msgs existing epoch now,
        ∃ m, msgs.reverse.find?
            (fun x => jsNormEmail x.email = item.email) = some m ∧
          item.email = jsNormEmail m.email ∧
          item.data = mkEmployeeData m epoch now) ∧
      (∀ m ∈ msgs, jsNormEmail m.email ≠ "" →
        jsNormEmail m.email ∈
          (prepareEmployeeData msgs existing epoch now).map (fun i => i.email)) := by
  refine ⟨prepareAux_nodup existing epoch now msgs.reverse [], ?_, ?_, ?_⟩
  · have h := dedupAux_eq_prepareAux existing epoch now msgs.reverse [] []
      (fun e => rfl)
    simpa [deduplicateEmails, prepareEmployeeData] using h
  · intro item hitem
    obtain ⟨-, -, m, hfind, hem, hdata⟩ :=
      prepareAux_mem existing epoch now msgs.reverse [] item hitem
    exact ⟨m, hfind, hem, hdata⟩
  · intro m hm hne
    rcases prepareAux_complete existing epoch now msgs.reverse [] m
        (List.mem_reverse.2 hm) hne with hcont | hmem
    · simp at hcont
    · exact hmem

theorem prepareEmployeeData_lastWins_witness :
    (∃ m, (([⟨"Bob@X.com", some "active", none⟩,
             ⟨" bob@x.com ", some "left", none⟩] :
             List UpsertMsg).reverse.find?
          (fun x => jsNormEmail x.email = "bob@x.com")) = some m ∧
        "bob@x.com" = jsNormEmail m.email ∧
        mkEmployeeData ⟨" bob@x.com ", some "left", none⟩ 1 2 =
          mkEmployeeData m 1 2) ∧
      jsNormEmail " bob@x.com " ∈
        (prepareEmployeeData
          [⟨"Bob@X.com", some "active", none⟩,
           ⟨" bob@x.com ", some "left", none⟩] [] 1 2).map
          (fun i => i.email) := by
  constructor
  · exact (prepareEmployeeData_lastWins
      [⟨"Bob@X.com", some "active", none⟩, ⟨" bob@x.com ", some "left", none⟩]
      [] 1 2).2.2.1
      ⟨"bob@x.com", mkEmployeeData ⟨" bob@x.com ", some "left", none⟩ 1 2,
        none, true⟩ (by decide)
  · exact (prepareEmployeeData_lastWins
      [⟨"Bob@X.com", some "active", none⟩, ⟨" bob@x.com ", some "left", none⟩]
      [] 1 2).2.2.2
      ⟨" bob@x.com ", some "left", none⟩ (by decide) (by decide)
/-! ## C3: deltas never create employees and touch only the delta fields -/

theorem find?_updateFirst_decomp (l : List EmpDoc) (p : EmpDoc → Bool)
    (e0 : EmpDoc) (h : l.find? p = some e0) :
    ∃ l1 l2, l = l1 ++ e0 :: l2 ∧ (∀ x ∈ l1, p x = false) ∧
      ∀ f, updateFirst l p f = l1 ++ f e0 :: l2 := by
  induction l with
  | nil => simp at h
  | cons a t ih =>
    by_cases hp : p a
    · rw [List.find?_cons_of_pos _ hp] at h
      obtain rfl := Option.some.inj h
      exact ⟨[], t, rfl, by simp, fun f => by simp [updateFirst, hp]⟩
    · rw [List.find?_cons_of_neg _ (by simpa using hp)] at h
      obtain ⟨l1, l2, heq, hl1, hupd⟩ := ih h
      refine ⟨a :: l1, l2, by rw [heq]; rfl, ?_, ?_⟩
      · intro x hx
        rcases List.mem_cons.1 hx with hx | hx
        · subst hx
          simpa using hp
        · exact hl1 x hx
      · intro f
        simp [updateFirst, hp, hupd f]

/-- C3: for a valid delta message: if no employee with the normalized
email exists, no document is created or changed (and the handler counts
the message as skipped); if one exists, only the first matching
document is replaced, by an update that writes exactly `statusInOrg`,
`presentInLatest` (per the transition table), `updatedAt`, `source` and
(when a truthy `eventId` is present) `lastEventId`, leaving
`lastSeenEpoch`, `id` and `email` unchanged and every other document
untouched. -/
theorem handleIngestDeltas_frame (emps : List EmpDoc) (m : DeltaMsg)
    (now : Nat) (st : JsVal) (pres : Bool)
    (hvalid : optTruthy m.email = true)
    (hemail : isValidEmail m.email = true) :
    (emps.find? (fun e => e.email = jsNormEmail (m.email.getD "")) = none →
      applyDelta emps m now = (emps, false) ∧
      handleIngestDeltas emps [m] now = (emps, 0, 1)) ∧
    (∀ e0, emps.find? (fun e => e.email = jsNormEmail (m.email.getD "")) =
        some e0 →
      deltaStatus m.deltaType = some (st, pres) →
      (applyDelta emps m now).2 = true ∧
      handleIngestDeltas emps [m] now = ((applyDelta emps m now).1, 1, 0) ∧
      ∃ l1 l2, emps = l1 ++ e0 :: l2 ∧
        (applyDelta emps m now).1 = l1 ++ deltaUpdate m st pres now e0 :: l2 ∧
        (deltaUpdate m st pres now e0).lastSeenEpoch = e0.lastSeenEpoch ∧
        (deltaUpdate m st pres now e0).id = e0.id ∧
        (deltaUpdate m st pres now e0).email = e0.email ∧
        (deltaUpdate m st pres now e0).statusInOrg = st ∧
        (deltaUpdate m st pres now e0).presentInLatest = pres ∧
        (deltaUpdate m st pres now e0).updatedAt = now ∧
        (deltaUpdate m st pres now e0).source = "kafka:delta" ∧
        (deltaUpdate m st pres now e0).lastEventId =
          (if optTruthy m.eventId then m.eventId else e0.lastEventId)) := by
  have hguard : (!(optTruthy m.email) || !(isValidEmail m.email)) = false := by
    rw [hvalid, hemail]
    rfl
  constructor
  · intro hnone
    have h1 : applyDelta emps m now = (emps, false) := by
      unfold applyDelta
      rw [hguard]
      simp only [Bool.false_eq_true, if_false, hnone]
    refine ⟨h1, ?_⟩
    simp only [handleIngestDeltas, List.foldl_cons, List.foldl_nil, h1]
    rfl
  · intro e0 hfind hdelta
    have h1 : applyDelta emps m now =
        (updateFirst emps (fun e => e.email = jsNormEmail (m.email.getD ""))
          (deltaUpdate m st pres now), true) := by
      unfold applyDelta
      rw [hguard]
      simp only [Bool.false_eq_true, if_false, hfind, hdelta]
    refine ⟨by rw [h1], ?_, ?_⟩
    · simp only [handleIngestDeltas, List.foldl_cons, List.foldl_nil, h1]
      rfl
    · obtain ⟨l1, l2, heq, -, hupd⟩ :=
        find?_updateFirst_decomp emps _ e0 hfind
      exact ⟨l1, l2, heq, by rw [h1, hupd], rfl, rfl, rfl, rfl, rfl, rfl,
        rfl, rfl⟩

theorem handleIngestDeltas_frame_witness :
    (applyDelta [⟨1, "a@b.c", .str "active", true, 3, 0, "kafka:upsert", none⟩]
        ⟨some "A@b.c", "left", some "ev1"⟩ 9).2 = true ∧
      handleIngestDeltas
          [⟨1, "a@b.c", .str "active", true, 3, 0, "kafka:upsert", none⟩]
          [⟨some "A@b.c", "left", some "ev1"⟩] 9 =
        ((applyDelta [⟨1, "a@b.c", .str "active", true, 3, 0, "kafka:upsert", none⟩]
            ⟨some "A@b.c", "left", some "ev1"⟩ 9).1, 1, 0) ∧
      ∃ l1 l2,
        [⟨1, "a@b.c", .str "active", true, 3, 0, "kafka:upsert", none⟩] =
          l1 ++ (⟨1, "a@b.c", .str "active", true, 3, 0, "kafka:upsert", none⟩ :
            EmpDoc) :: l2 ∧
        (applyDelta [⟨1, "a@b.c", .str "active", true, 3, 0, "kafka:upsert", none⟩]
            ⟨some "A@b.c", "left", some "ev1"⟩ 9).1 =
          l1 ++ deltaUpdate ⟨some "A@b.c", "left", some "ev1"⟩ (.str "left") false 9
            ⟨1, "a@b.c", .str "active", true, 3, 0, "kafka:upsert", none⟩ :: l2 ∧
        (deltaUpdate ⟨some "A@b.c", "left", some "ev1"⟩ (.str "left") false 9
            ⟨1, "a@b.c", .str "active", true, 3, 0, "kafka:upsert", none⟩).lastSeenEpoch =
          (⟨1, "a@b.c", .str "active", true, 3, 0, "kafka:upsert", none⟩ :
            EmpDoc).lastSeenEpoch ∧
        (deltaUpdate ⟨some "A@b.c", "left", some "ev1"⟩ (.str "left") false 9
            ⟨1, "a@b.c", .str "active", true, 3, 0, "kafka:upsert", none⟩).id =
          (⟨1, "a@b.c", .str "active", true, 3, 0, "kafka:upsert", none⟩ :
            EmpDoc).id ∧
        (deltaUpdate ⟨some "A@b.c", "left", some "ev1"⟩ (.str "left") false 9
            ⟨1, "a@b.c", .str "active", true, 3, 0, "kafka:upsert", none⟩).email =
          (⟨1, "a@b.c", .str "active", true, 3, 0, "kafka:upsert", none⟩ :
            EmpDoc).email ∧
        (deltaUpdate ⟨some "A@b.c", "left", some "ev1"⟩ (.str "left") false 9
            ⟨1, "a@b.c", .str "active", true, 3, 0, "kafka:upsert", none⟩).statusInOrg =
          JsVal.str "left" ∧
        (deltaUpdate ⟨some "A@b.c", "left", some "ev1"⟩ (.str "left") false 9
            ⟨1, "a@b.c", .str "active", true, 3, 0, "kafka:upsert", none⟩).presentInLatest =
          false ∧
        (deltaUpdate ⟨some "A@b.c", "left", some "ev1"⟩ (.str "left") false 9
            ⟨1, "a@b.c", .str "active", true, 3, 0, "kafka:upsert", none⟩).updatedAt =
          9 ∧
        (deltaUpdate ⟨some "A@b.c", "left", some "ev1"⟩ (.str "left") false 9
            ⟨1, "a@b.c", .str "active", true, 3, 0, "kafka:upsert", none⟩).source =
          "kafka:delta" ∧
        (deltaUpdate ⟨some "A@b.c", "left", some "ev1"⟩ (.str "left") false 9
            ⟨1, "a@b.c", .str "active", true, 3, 0, "kafka:upsert", none⟩).lastEventId =
          (if optTruthy (some "ev1") then some "ev1"
           else (⟨1, "a@b.c", .str "active", true, 3, 0, "kafka:upsert", none⟩ :
             EmpDoc).lastEventId) :=
  (handleIngestDeltas_frame
    [⟨1, "a@b.c", .str "active", true, 3, 0, "kafka:upsert", none⟩]
    ⟨some "A@b.c", "left", some "ev1"⟩ 9 (.str "left") false (by decide)
    (by decide)).2
    ⟨1, "a@b.c", .str "active", true, 3, 0, "kafka:upsert", none⟩
    (by decide) (by decide)

/-! ## C10: the /ingest/email response over-reports processed rows -/

/-- C10: `handleEmail` always reports `processed = rows.length` (the
raw parsed row count) on success, even though rows rejected by
`normalizeRow` are skipped without any write: on `sampleRows` (one
valid row, one row with an invalid email) against an empty
organization, the response says `processed = 2` while only 1 document
was written (the internal write counter of `handleUpserts` is 1, and
the store holds 1 employee afterwards), so the reported count strictly
exceeds the number of documents actually written or updated. -/
theorem handleEmail_processed_overcounts :
    (∀ (s : OrgState) (orgId : String) (orgName : Option String)
        (rows : List RawRow) (now : Nat),
      orgId = "" ∨ rows = [] ∨
        handleEmail s orgId orgName rows now =
          some ((handleUpserts s rows orgName now).1,
            { success := true, processed := rows.length,
              kind := "upserts" })) ∧
      (handleUpserts emptyOrgState sampleRows none 0).2.1 = 1 ∧
      (handleEmail emptyOrgState "acme" none sampleRows 0).map
          (fun pr => (pr.2.processed, pr.1.employees.length)) =
        some (2, 1) := by
  refine ⟨?_, by decide, by decide⟩
  intro s orgId orgName rows now
  by_cases h1 : orgId = ""
  · exact Or.inl h1
  · by_cases h2 : rows = []
    · exact Or.inr (Or.inl h2)
    · refine Or.inr (Or.inr ?_)
      unfold handleEmail
      rw [if_neg h1, if_neg (by simpa [List.isEmpty_iff] using h2)]

/-! ## C2: the finalizer sweep post-condition -/

theorem applySweepBatch_ids (emps page : List EmpDoc) (now : Nat) :
    (applySweepBatch emps page now).map (fun e => e.id) =
      emps.map (fun e => e.id) := by
  unfold applySweepBatch
  rw [List.map_map]
  refine List.map_congr_left ?_
  intro e _
  simp only [Function.comp_apply]
  split <;> rfl

theorem countP_lt_of_witness (l : List EmpDoc) (p q : EmpDoc → Bool)
    (hpq : ∀ a, p a = true → q a = true)
    (a : EmpDoc) (ha : a ∈ l) (hqa : q a = true) (hpa : p a = false) :
    l.countP p < l.countP q := by
  induction l with
  | nil => simp at ha
  | cons b t ih =>
    have hmono : t.countP p ≤ t.countP q :=
      List.countP_mono_left (fun x _ hx => hpq x hx)
    rcases List.mem_cons.1 ha with hb | hb
    · subst hb
      rw [List.countP_cons, List.countP_cons, hqa, hpa]
      simpa using Nat.lt_succ_of_le hmono
    · have h1 := ih hb
      rw [List.countP_cons, List.countP_cons]
      have h2 : (if p b = true then 1 else 0) ≤ (if q b = true then 1 else 0) := by
        by_cases hpb : p b = true
        · rw [if_pos hpb, if_pos (hpq b hpb)]
        · rw [if_neg hpb]
          omega
      omega

theorem mem_sweepQuery (E : Nat) (cursor : Option (Nat × Nat))
    (emps : List EmpDoc) (x : EmpDoc)
    (hx : x ∈ sweepQuery E cursor emps) :
    x ∈ emps ∧ matchesSweep E x = true ∧ afterCursor cursor x = true := by
  unfold sweepQuery at hx
  have h1 : x ∈ List.insertionSort sweepLe
      ((emps.filter (matchesSweep E)).filter (afterCursor cursor)) :=
    List.mem_of_mem_take hx
  have h2 : x ∈ (emps.filter (matchesSweep E)).filter (afterCursor cursor) :=
    (List.mem_insertionSort sweepLe).1 h1
  have h3 := List.mem_filter.1 h2
  have h4 := List.mem_filter.1 h3.1
  exact ⟨h4.1, h4.2, h3.2⟩

theorem mem_filter_sweep (E : Nat) (cursor : Option (Nat × Nat))
    (emps : List EmpDoc) (e : EmpDoc) (he : e ∈ emps)
    (hm : matchesSweep E e = true) (hc : afterCursor cursor e = true) :
    e ∈ (emps.filter (matchesSweep E)).filter (afterCursor cursor) :=
  List.mem_filter.2 ⟨List.mem_filter.2 ⟨he, hm⟩, hc⟩

theorem sweepQuery_nil_of_getLast?_none (E : Nat)
    (cursor : Option (Nat × Nat)) (emps : List EmpDoc)
    (h : (sweepQuery E cursor emps).getLast? = none) :
    (emps.filter (matchesSweep E)).filter (afterCursor cursor) = [] := by
  have hpage : sweepQuery E cursor emps = [] :=
    List.getLast?_eq_none_iff.1 h
  unfold sweepQuery at hpage
  rcases List.take_eq_nil_iff.1 hpage with h0 | hS
  · exact absurd h0 (by unfold pageSize; omega)
  · have hlen := List.length_insertionSort sweepLe
      ((emps.filter (matchesSweep E)).filter (afterCursor cursor))
    rw [hS] at hlen
    exact List.eq_nil_of_length_eq_zero hlen.symm

theorem keyLt_of_keyLe_ne (x y : Nat × Nat) (h1 : keyLe x y)
    (h2 : x.2 ≠ y.2) : keyLt x y := by
  unfold keyLe at h1
  unfold keyLt
  omega

theorem finalizeLoop_clears (E now : Nat) :
    ∀ (fuel : Nat) (cursor : Option (Nat × Nat)) (emps : List EmpDoc),
      (emps.map (fun e => e.id)).Nodup →
      emps.countP (matchesSweep E) < fuel →
      (∀ x ∈ emps, matchesSweep E x = true → afterCursor cursor x = true) →
      ∀ e ∈ finalizeLoop E now fuel cursor emps, matchesSweep E e = false := by
  intro fuel
  induction fuel with
  | zero =>
    intro cursor emps _ hf _ e _
    exact absurd hf (Nat.not_lt_zero _)
  | succ fuel ih =>
    intro cursor emps hnodup hf hinv e he
    simp only [finalizeLoop] at he
    cases hlast : (sweepQuery E cursor emps).getLast? with
    | none =>
      rw [hlast] at he
      simp only at he
      by_contra hmt
      have hm : matchesSweep E e = true := by
        cases hmm : matchesSweep E e
        · exact absurd hmm hmt
        · rfl
      have hnil := sweepQuery_nil_of_getLast?_none E cursor emps hlast
      have hmem := mem_filter_sweep E cursor emps e he hm (hinv e he hm)
      rw [hnil] at hmem
      simp at hmem
    | some last =>
      rw [hlast] at he
      simp only at he
      have hlastmem : last ∈ sweepQuery E cursor emps :=
        List.mem_of_mem_getLast? hlast
      obtain ⟨hlein, hlm, hlc⟩ := mem_sweepQuery E cursor emps last hlastmem
      by_cases hshort : (sweepQuery E cursor emps).length < pageSize
      · rw [if_pos hshort] at he
        unfold applySweepBatch at he
        obtain ⟨e0, he0, hfe⟩ := List.mem_map.1 he
        by_cases hid : (sweepQuery E cursor emps).any (fun d => d.id = e0.id)
        · rw [← hfe]
          simp only [hid, if_pos]
          simp [matchesSweep]
        · have hee : e = e0 := by
            rw [← hfe]
            simp [hid]
          subst hee
          by_contra hmt
          have hm : matchesSweep E e = true := by
            cases hmm : matchesSweep E e
            · exact absurd hmm hmt
            · rfl
          have hQ := mem_filter_sweep E cursor emps e he0 hm (hinv e he0 hm)
          have hS : e ∈ List.insertionSort sweepLe
              ((emps.filter (matchesSweep E)).filter (afterCursor cursor)) :=
            (List.mem_insertionSort sweepLe).2 hQ
          have hpage : sweepQuery E cursor emps =
              List.insertionSort sweepLe
                ((emps.filter (matchesSweep E)).filter (afterCursor cursor)) := by
            unfold sweepQuery
            refine List.take_of_length_le ?_
            have hlen := List.length_insertionSort sweepLe
              ((emps.filter (matchesSweep E)).filter (afterCursor cursor))
            have := hshort
            unfold sweepQuery at this
            rw [List.length_take] at this
            omega
          have : (sweepQuery E cursor emps).any (fun d => d.id = e.id) = true := by
            refine List.any_eq_true.2 ⟨e, ?_, by simp⟩
            rw [hpage]
            exact hS
          exact absurd this (by simpa using hid)
      · rw [if_neg hshort] at he
        refine ih (some (sweepKey last))
          (applySweepBatch emps (sweepQuery E cursor emps) now) ?_ ?_ ?_ e he
        · rw [applySweepBatch_ids]
          exact hnodup
        · have hcnt : (applySweepBatch emps (sweepQuery E cursor emps)
              now).countP (matchesSweep E) =
              emps.countP (fun x =>
                !((sweepQuery E cursor emps).any (fun d => d.id = x.id)) &&
                  matchesSweep E x) := by
            unfold applySweepBatch
            rw [List.countP_map]
            refine List.countP_congr ?_
            intro x _
            by_cases hid : (sweepQuery E cursor emps).any (fun d => d.id = x.id)
            · simp [Function.comp, hid, matchesSweep]
            · simp [Function.comp, hid]
          rw [hcnt]
          have hdec : emps.countP (fun x =>
              !((sweepQuery E cursor emps).any (fun d => d.id = x.id)) &&
                matchesSweep E x) < emps.countP (matchesSweep E) := by
            refine countP_lt_of_witness emps _ _ ?_ last hlein hlm ?_
            · intro a ha
              rw [Bool.and_eq_true] at ha
              exact ha.2
            · have : (sweepQuery E cursor emps).any
                  (fun d => d.id = last.id) = true :=
                List.any_eq_true.2 ⟨last, hlastmem, by simp⟩
              rw [this]
              rfl
          omega
        · intro x hx hmx
          unfold applySweepBatch at hx
          obtain ⟨x0, hx0, hfx⟩ := List.mem_map.1 hx
          by_cases hid : (sweepQuery E cursor emps).any (fun d => d.id = x0.id)
          · rw [← hfx] at hmx
            simp only [hid, if_pos] at hmx
            simp [matchesSweep] at hmx
          · have hxx : x = x0 := by
              rw [← hfx]
              simp [hid]
            subst hxx
            have hQ := mem_filter_sweep E cursor emps x hx0 hmx (hinv x hx0 hmx)
            have hS : x ∈ List.insertionSort sweepLe
                ((emps.filter (matchesSweep E)).filter (afterCursor cursor)) :=
              (List.mem_insertionSort sweepLe).2 hQ
            have hnp : x ∉ sweepQuery E cursor emps := by
              intro hmem
              exact hid (List.any_eq_true.2 ⟨x, hmem, by simp⟩)
            have hxdrop : x ∈ (List.insertionSort sweepLe
                ((emps.filter (matchesSweep E)).filter
                  (afterCursor cursor))).drop pageSize := by
              have h1 := hS
              rw [← List.take_append_drop pageSize
                (List.insertionSort sweepLe
                  ((emps.filter (matchesSweep E)).filter
                    (afterCursor cursor)))] at h1
              rcases List.mem_append.1 h1 with h2 | h2
              · exact absurd h2 hnp
              · exact h2
            have hsorted := List.sorted_insertionSort sweepLe
              ((emps.filter (matchesSweep E)).filter (afterCursor cursor))
            rw [← List.take_append_drop pageSize
              (List.insertionSort sweepLe
                ((emps.filter (matchesSweep E)).filter
                  (afterCursor cursor)))] at hsorted
            have hle : sweepLe last x :=
              (List.pairwise_append.1 hsorted).2.2 last hlastmem x hxdrop
            have hne : last.id ≠ x.id := by
              intro hh
              exact hid (List.any_eq_true.2 ⟨last, hlastmem, by simp [hh]⟩)
            have hklt : keyLt (sweepKey last) (sweepKey x) :=
              keyLt_of_keyLe_ne _ _ hle (by simpa [sweepKey] using hne)
            unfold afterCursor
            simp [hklt]

/-- C2: after `finalizeRun(orgId, E)` returns — the paginated sweep
terminating in every case, including a last page of exactly
`pageSize = 1000` rows (the loop then continues past the page's last
document and the next query comes back empty) — no employee document
of the organization has `presentInLatest = true` together with
`lastSeenEpoch < E`, and the organization document carries
`lastFinalizedEpoch = E` (and `currentEpoch = E`).  The hypothesis is
the store's invariant that document ids are distinct. -/
theorem finalizeRun_clears (s : OrgState) (E now : Nat)
    (hids : (s.employees.map (fun e => e.id)).Nodup) :
    (∀ e ∈ (finalizeRun s E now).employees,
      ¬(e.presentInLatest = true ∧ e.lastSeenEpoch < E)) ∧
    (finalizeRun s E now).org.lastFinalizedEpoch = some E ∧
    (finalizeRun s E now).org.currentEpoch = E := by
  refine ⟨?_, rfl, rfl⟩
  intro e he
  have hcnt : s.employees.countP (matchesSweep E) < s.employees.length + 1 := by
    have := List.countP_le_length (matchesSweep E) (l := s.employees)
    omega
  have h := finalizeLoop_clears E now (s.employees.length + 1) none
    s.employees hids hcnt (fun _ _ _ => rfl) e he
  intro hcontra
  rw [matchesSweep, hcontra.1] at h
  simp [hcontra.2] at h

theorem finalizeRun_clears_witness :
    ¬((⟨1, "a@b.c", .str "active", false, 1, 5, "email:upsert", none⟩ :
        EmpDoc).presentInLatest = true ∧
      (⟨1, "a@b.c", .str "active", false, 1, 5, "email:upsert", none⟩ :
        EmpDoc).lastSeenEpoch < 2) ∧
    (finalizeRun ⟨⟨1, none, none, 0⟩,
        [⟨1, "a@b.c", .str "active", true, 1, 0, "email:upsert", none⟩]⟩ 2
        5).org.lastFinalizedEpoch = some 2 :=
  ⟨(finalizeRun_clears ⟨⟨1, none, none, 0⟩,
      [⟨1, "a@b.c", .str "active", true, 1, 0, "email:upsert", none⟩]⟩ 2 5
      (by decide)).1
      ⟨1, "a@b.c", .str "active", false, 1, 5, "email:upsert", none⟩ (by decide),
   (finalizeRun_clears ⟨⟨1, none, none, 0⟩,
      [⟨1, "a@b.c", .str "active", true, 1, 0, "email:upsert", none⟩]⟩ 2 5
      (by decide)).2.1⟩

end OrgOnboarder
